import Mathlib

/-!
Verification development for the watson-routing path-template engine
(`watson/routing/routes.py` and `watson/routing/routers.py`).

The segmented-path grammar, its compiled matcher, the reverse renderer
(`path_from_segments`), the format-negotiation fragment of `Base.match`,
route construction (`build_route` strategy selection), child-route
expansion (`add_definition` / `_create_child_routes`) and the router
ordering policy (`Base.sort` / `Base.matches` / `Choice.matches`) are
embedded as executable Lean functions, and the behavioural properties of
the specification are settled against them.
-/

namespace WatsonRouting

/--
A parsed segment tree, the result of `segments_from_path`.

The source represents a parsed template as a Python list of tagged pairs
`('static', text)`, `('segment', name)`, `('optional', children)`, where
`children` is again such a list.  Here the same sequence is encoded as a
right-nested chain (`nil` ends a level; each node carries the rest of its
level), which is the same data laid out first-order: `optional` carries
the child level and the continuation of the current level.
-/
inductive SegT where
  | nil : SegT
  | static : String → SegT → SegT
  | segment : String → SegT → SegT
  | optional : SegT → SegT → SegT
deriving Repr, DecidableEq

/-- Number of nodes at the top level of a chain: Python `len(segments)`
for the list this chain encodes. -/
def segTLen : SegT → Nat
  | .nil => 0
  | .static _ r => 1 + segTLen r
  | .segment _ r => 1 + segTLen r
  | .optional _ r => 1 + segTLen r

/-- Append one level chain after another (Python `list.append` on the
level being built, iterated). -/
def segAppend : SegT → SegT → SegT
  | .nil, t => t
  | .static s r, t => .static s (segAppend r t)
  | .segment n r, t => .segment n (segAppend r t)
  | .optional c r, t => .optional c (segAppend r t)

/-- Characters that end a static run: the `segments_pattern` regex
`(?P<static>[^:\x5b\x5d]*)(?P<token>[:\x5b\x5d]|$)` scans literal text up
to the next `:`, `[` or `]`. -/
def staticChar (c : Char) : Bool := !(c = ':' || c = '[' || c = ']')

/-- Characters allowed in a segment name: `token_pattern` is
`(?P<name>[^:/\x5b\x5d]+)`. -/
def nameChar (c : Char) : Bool := !(c = ':' || c = '/' || c = '[' || c = ']')

/-- `token_pattern.search(path)`: the first maximal run of name
characters anywhere in `path` (`re.search`, not `re.match`), or `none`
when no name character occurs (the source then crashes with
`AttributeError` on `.groupdict()`). -/
def searchName : List Char → Option (List Char)
  | [] => none
  | c :: cs => if nameChar c then some ((c :: cs).takeWhile nameChar) else searchName cs

/-- Errors `segments_from_path` (and route construction around it) can
raise.  `bracketMismatch` is the source's
`ValueError('Bracket mismatch detected.')`; `nameError` is the
`AttributeError` crash when `token_pattern.search` finds nothing after a
`:`; `invalidDefinition` stands for the `TypeError`/`Exception` path when
a definition cannot be built; `fuelExhausted` is the recursion sentinel
of this embedding and is unreachable for the fuel the wrappers supply. -/
inductive ParseErr where
  | bracketMismatch
  | nameError
  | invalidDefinition
  | fuelExhausted
deriving Repr, DecidableEq

/-- Append a finished node to the level currently open (the head of the
stack of levels, deepest first).  Mirrors
`depth_segments[depth].append(...)`. -/
def pushNode : List SegT → SegT → List SegT
  | [], n => [n]
  | h :: t, n => segAppend h n :: t

/-- Close every still-open group at end of input.  The source appends the
`('optional', [])` pair to the parent at `[` time and mutates the child
list in place, so at end of string an unterminated group is already
attached to its parent with the children collected so far: folding the
stack closed reproduces exactly that final value. -/
def closeAll : SegT → List SegT → SegT
  | top, [] => top
  | top, parent :: rest => closeAll (segAppend parent (.optional top .nil)) rest

/-- The tokenizer loop of `segments_from_path`.  Each iteration scans a
static run, then dispatches on the next token: `:` consumes a name found
by `token_pattern.search` and strips its length off the front of the
remaining input, `[` opens a level, `]` closes the current level (error
when only the root is open), end of input returns the root with any open
groups silently closed.  `fuel` only bounds the recursion; every
iteration consumes at least one character, so `length + 1` is always
enough. -/
def parseLoop : Nat → List Char → List SegT → Except ParseErr SegT
  | 0, _, _ => .error .fuelExhausted
  | fuel + 1, cs, stack =>
    match cs with
    | [] =>
      match stack with
      | [] => .ok .nil
      | top :: rest => .ok (closeAll top rest)
    | _ :: _ =>
      let stat := cs.takeWhile staticChar
      let rest := cs.drop stat.length
      let stack1 := if stat.isEmpty then stack else pushNode stack (.static stat.asString .nil)
      match rest with
      | [] =>
        match stack1 with
        | [] => .ok .nil
        | top :: rest' => .ok (closeAll top rest')
      | tok :: rest' =>
        if tok = ':' then
          match searchName rest' with
          | none => .error .nameError
          | some nm => parseLoop fuel (rest'.drop nm.length) (pushNode stack1 (.segment nm.asString .nil))
        else if tok = '[' then
          parseLoop fuel rest' (.nil :: stack1)
        else
          match stack1 with
          | top :: parent :: stack2 => parseLoop fuel rest' (segAppend parent (.optional top .nil) :: stack2)
          | _ => .error .bracketMismatch

/-- `segments_from_path(path)`: convert a segmented path template into a
segment tree.  Faithful to the source, including its quirks: a `]` seen
by the tokenizer with only the root level open raises, but an
unterminated `[` at end of input is silently closed, and a name scan
after `:` can skip characters (including a `]`) before the first name
character. -/
def segments_from_path (path : String) : Except ParseErr SegT :=
  parseLoop (path.length + 1) path.toList [SegT.nil]

/-- Captured named groups, in match order (`matches.groupdict()`
restricted to groups that participated in the match). -/
abbrev Caps := List (String × String)

/-- Literal text match: consume `pat` off the front of the input
(`re.escape(value)` inside the compiled pattern). -/
def matchStatic : List Char → List Char → Option (List Char)
  | [], cs => some cs
  | _ :: _, [] => none
  | p :: ps, c :: cs => if p = c then matchStatic ps cs else none

/-- Backtracking loop for one `(?P<name>[^/]+)` capture: try the longest
candidate first (`l` characters), retrying one shorter on failure of the
continuation, down to one character. -/
def tryCap (name : String) (cs : List Char) : Nat → (List Char → Option Caps) → Option Caps
  | 0, _ => none
  | l + 1, cont =>
    match cont (cs.drop (l + 1)) with
    | some caps => some ((name, ((cs.take (l + 1)).asString)) :: caps)
    | none => tryCap name cs l cont

/--
Semantics of the pattern `regex_from_segments` compiles, applied with
Python `re.match` (anchored at the start; `$` here means end of input).

`regex_from_segments` emits, per node: the escaped text for a static,
`(?P<name>[^/]+)` for a named segment (the default `end_pattern_string`;
constraint overrides from `requires` are not modelled — every route the
claims below touch has an empty `requires`), and
`(?:children-pattern)?` for an optional group; it appends `$` at the end
of EVERY level it renders, so an optional group only matches when its
children reach the end of the whole input.  `k` is the continuation for
the pattern that follows the current level.
-/
def matchSegT : SegT → List Char → (List Char → Option Caps) → Option Caps
  | .nil, cs, k => k cs
  | .static s r, cs, k =>
    match matchStatic s.toList cs with
    | some cs' => matchSegT r cs' k
    | none => none
  | .segment n r, cs, k =>
    tryCap n cs (cs.takeWhile (fun c => c ≠ '/')).length (fun cs' => matchSegT r cs' k)
  | .optional ch r, cs, k =>
    match matchSegT ch cs (fun cs2 => if cs2.isEmpty then matchSegT r cs2 k else none) with
    | some caps => some caps
    | none => matchSegT r cs k

/-- `self.regex.match(request.environ.get('PATH_INFO'))` for a compiled
segment route: match the whole path against the compiled pattern and
return the participating named groups. -/
def regexMatch (st : SegT) (path : String) : Option Caps :=
  matchSegT st path.toList (fun cs => if cs.isEmpty then some [] else none)

/-- Python `path[0:-r]` on the accumulator list: drops the last `r`
elements for `r > 0`, but `-0 == 0` so `r = 0` yields the EMPTY prefix
`path[0:0]`, not the whole list. -/
def pyTrunc (l : List String) (r : Nat) : List String :=
  if r = 0 then [] else l.take (l.length - r)

/--
The loop body of `path_from_segments(segments, params, optional)`.

`acc` is the `path` list of rendered pieces; `oLen` is `len(segments)`
of the level this call renders (used by the truncation
`path = path[0:-(len(segments) - 1)]`); `opt` is the `optional` flag,
which the source updates with
`optional = optional if optional else type_ == 'optional'` — once an
optional group is seen at a level, every later node of that level is
treated as optional too.  A named segment renders its parameter value
when present and non-empty; otherwise, under the optional flag the
accumulated path is truncated and rendering continues, and without it a
`KeyError` naming the segment is raised (modelled as `.error name`).
-/
def pfsAux : SegT → (String → Option String) → Bool → Nat → List String → Except String (List String)
  | .nil, _, _, _, acc => .ok acc
  | .static s r, params, opt, oLen, acc => pfsAux r params opt oLen (acc ++ [s])
  | .segment n r, params, opt, oLen, acc =>
    match params n with
    | some v =>
      if v = "" then
        if opt then pfsAux r params opt oLen (pyTrunc acc (oLen - 1)) else .error n
      else
        pfsAux r params opt oLen (acc ++ [v])
    | none =>
      if opt then pfsAux r params opt oLen (pyTrunc acc (oLen - 1)) else .error n
  | .optional ch r, params, opt, oLen, acc =>
    match pfsAux ch params true (segTLen ch) [] with
    | .error e => .error e
    | .ok sub => pfsAux r params true oLen (acc ++ [String.join sub])

/-- `path_from_segments(segments, params)`: render a segment tree back
into a path (`''.join(path)` of the accumulated pieces). -/
def path_from_segments (st : SegT) (params : String → Option String) : Except String String :=
  (pfsAux st params false (segTLen st) []).map String.join

/-- First-match lookup in an association list (a Python dict as the
claims use it: string keys, string values). -/
def lookupP : List (String × String) → String → Option String
  | [], _ => none
  | (k, v) :: t, n => if k = n then some v else lookupP t n

/-- Dict assignment `d[k] = v`: replace the binding in place, or append
a new one. -/
def setParam : List (String × String) → String → String → List (String × String)
  | [], k, v => [(k, v)]
  | (k', v') :: t, k, v => if k' = k then (k, v) :: t else (k', v') :: setParam t k v

/-- `collections.ChainMap(kwargs or {}, self.defaults)`: look in the
keyword arguments first, then in the defaults. -/
def chainLookup (kwargs defaults : List (String × String)) (n : String) : Option String :=
  match lookupP kwargs n with
  | some v => some v
  | none => lookupP defaults n

/-- `Segment.assemble(prefix, **kwargs)`: render via
`path_from_segments` over the keyword-arguments-over-defaults chain and
prepend the prefix when given. -/
def segmentAssemble (st : SegT) (defaults kwargs : List (String × String))
    (pre : Option String) : Except String String :=
  (path_from_segments st (chainLookup kwargs defaults)).map
    (fun p => match pre with | some s => s ++ p | none => p)

/-- The candidate format names for an Accept header:
`[format for format in MIME_TYPES if accept_headers in MIME_TYPES[format]]`.
`MIME_TYPES` is an externally supplied table (from `watson.http`), passed
here as data: an ordered association of format name to its media-type
strings. -/
def candidatesOf (mimeTypes : List (String × List String)) (accept : String) : List String :=
  (mimeTypes.filter (fun ft => ft.2.contains accept)).map Prod.fst

/--
The format-negotiation fragment of `Base.match` (the
`if 'format' in self.requires:` block).  `constraint` stands for
`self._regex_requires['format'].match`, the compiled constraint test.

The source iterates over ALL candidates and assigns
`params['format'] = format` for every one the constraint accepts (so a
later match overwrites an earlier one), and returns `None` only when the
candidate list itself is empty; candidates that all fail the constraint
leave `params` untouched but do NOT fail the match.
-/
def format_check (constraint : String → Bool) (mimeTypes : List (String × List String))
    (accept : String) (params : List (String × String)) : Option (List (String × String)) :=
  let formats := candidatesOf mimeTypes accept
  if formats.isEmpty then none
  else some (formats.foldl (fun ps f => if constraint f then setParam ps "format" f else ps) params)

/-- The `priority` property of `routes.Base`:
`int(self._priority) or 1` — a stored priority of `0` is falsy and reads
back as `1`; every other integer reads back unchanged. -/
def priorityRead (p : Int) : Int := if p = 0 then 1 else p

/-- The default priority `routers.List.__init__` gives the definition at
`position` in the list when it does not declare one:
`route_definition['priority'] = priority` with `priority` the
`enumerate` index. -/
def listPriority (position : Nat) (declared : Option Int) : Int :=
  declared.getD (Int.ofNat position)

/-- A constructed route, as far as the claims observe it: its name, path
template, stored priority (`_priority`) and, for pattern routes, the
parsed segment tree its matcher was compiled from (`none` for a
`Literal` route).  `accepts`, `requires`, `defaults` and `options` are
not carried: every route the claims below exercise leaves them at their
defaults. -/
structure RouteR where
  name : String
  path : String
  prio : Int
  segs : Option SegT
deriving Repr, DecidableEq

/-- `Segment.builder`'s applicability test: the definition carries a
path containing `:` or `[` (the raw-`regex` alternative is not used by
any claim). -/
def hasPatternChar (path : String) : Bool :=
  path.toList.any (fun c => c = ':' || c = '[')

/-- `Base.build_route(**definition)`: try `SegmentRoute.builder` first —
it accepts when the path contains `:` or `[`, whereupon the `regex`
setter parses the path (so a parse error escapes; only `TypeError` is
suppressed by the strategy loop) — and otherwise fall through to
`LiteralRoute.builder`, which accepts any path verbatim. -/
def buildRoute (name path : String) (prio : Int) : Except ParseErr RouteR :=
  if hasPatternChar path then
    (segments_from_path path).map (fun st => { name, path, prio, segs := some st })
  else
    .ok { name, path, prio, segs := none }

/-- `OrderedDict` assignment `self.routes[route.name] = route`: replace
in place when the name exists, else append. -/
def upsert : List (String × RouteR) → String → RouteR → List (String × RouteR)
  | [], n, r => [(n, r)]
  | (m, s) :: t, n, r => if m = n then (n, r) :: t else (m, s) :: upsert t n r

/-- A route definition with its nested children, in the same sibling
chain encoding as `SegT`: `node name path prio children next`.  `path`
is `none` when the definition does not declare one (children are then
given the default `'/{name}'`).  The `requires`/`defaults` deep-merge of
`_create_child_routes` is not carried, matching the `RouteR` model. -/
inductive DefnT where
  | nil : DefnT
  | node : String → Option String → Int → DefnT → DefnT → DefnT

/-- The renaming and path prefixing `_create_child_routes` applies to a
child definition before recursing: the child is renamed
`'{parent}/{child}'`; a child without a path gets `'/{new_name}'`; the
parent route's path is prepended.  With no parent, the definition is
used as-is (the top-level `add_definition` call). -/
def applyParent : Option RouteR → String → Option String → String × Option String
  | none, n, p => (n, p)
  | some pr, n, p =>
    let n' := pr.name ++ "/" ++ n
    (n', some (pr.path ++ p.getD ("/" ++ n')))

/-- `Base.add_definition` over a chain of definitions under an optional
parent route: build the (renamed, prefixed) route, recursively add its
children — they are registered BEFORE the route itself — then register
the route, then continue with the next sibling.  A definition without a
path cannot be built by any strategy (the source raises). -/
def addChain : Option RouteR → DefnT → List (String × RouteR) → Except ParseErr (List (String × RouteR))
  | _, .nil, coll => .ok coll
  | parentCtx, .node name path prio children next, coll =>
    match applyParent parentCtx name path with
    | (name', some p) =>
      match buildRoute name' p prio with
      | .error e => .error e
      | .ok r =>
        match addChain (some r) children coll with
        | .error e => .error e
        | .ok coll2 => addChain parentCtx next (upsert coll2 name' r)
    | (_, none) => .error .invalidDefinition

/-- `Base.add_definition(definition)` on one definition against an
existing collection. -/
def add_definition (name : String) (path : Option String) (prio : Int) (children : DefnT)
    (coll : List (String × RouteR)) : Except ParseErr (List (String × RouteR)) :=
  addChain none (.node name path prio children .nil) coll

/-- The sort key of `Base.sort`:
`key=lambda r: (r[1].priority, r[1].path)` — the `priority` PROPERTY
(so a stored `0` keys as `1`) paired with the path template string. -/
def routeKey (r : RouteR) : Int × String := (priorityRead r.prio, r.path)

/-- Python string comparison (`str < str` / `str <= str`): lexicographic
by code point. -/
def strLeB : List Char → List Char → Bool
  | [], _ => true
  | _ :: _, [] => false
  | a :: as, b :: bs => if a = b then strLeB as bs else decide (a < b)

/-- Python tuple comparison on the sort key: lexicographic — first the
integer, ties broken by the (code-point lexicographic) string order. -/
def keyLe (a b : Int × String) : Prop :=
  a.1 < b.1 ∨ (a.1 = b.1 ∧ strLeB a.2.toList b.2.toList = true)

instance : DecidableRel keyLe := fun a b => by
  unfold keyLe; infer_instance

/-- The comparison `sorted` uses on collection entries. -/
def entryLe (a b : String × RouteR) : Prop := keyLe (routeKey a.2) (routeKey b.2)

instance : DecidableRel entryLe := fun a b => by
  unfold entryLe; infer_instance

theorem strLeB_total : ∀ a b : List Char, strLeB a b = true ∨ strLeB b a = true
  | [], _ => Or.inl rfl
  | _ :: _, [] => Or.inr rfl
  | a :: as, b :: bs => by
    simp only [strLeB]
    by_cases hab : a = b
    · subst hab
      simpa using strLeB_total as bs
    · rcases lt_or_gt_of_ne hab with h | h
      · simp [hab, h]
      · simp [hab, Ne.symm hab, not_lt_of_gt h, h]

theorem strLeB_trans :
    ∀ a b c : List Char, strLeB a b = true → strLeB b c = true → strLeB a c = true
  | [], _, _ => by intros; rfl
  | _ :: _, [], _ => by intro h; exact absurd h (by simp [strLeB])
  | _ :: _, _ :: _, [] => by intro _ h; exact absurd h (by simp [strLeB])
  | a :: as, b :: bs, c :: cs => by
    simp only [strLeB]
    by_cases hab : a = b <;> by_cases hbc : b = c
    · subst hab; subst hbc
      simp only [if_pos rfl]
      exact strLeB_trans as bs cs
    · subst hab; simp [hbc]
    · subst hbc
      simp only [if_neg hab, if_pos rfl]
      intro h _
      exact h
    · by_cases hac : a = c
      · subst hac
        intro h1 h2
        simp only [if_neg hab] at h1
        simp only [if_neg hbc] at h2
        exact absurd (lt_trans (of_decide_eq_true h1) (of_decide_eq_true h2)) (lt_irrefl a)
      · intro h1 h2
        simp only [if_neg hab] at h1
        simp only [if_neg hbc] at h2
        simp only [if_neg hac]
        exact decide_eq_true (lt_trans (of_decide_eq_true h1) (of_decide_eq_true h2))

instance : IsTotal (String × RouteR) entryLe :=
  ⟨fun a b => by
    unfold entryLe keyLe
    rcases lt_trichotomy (routeKey a.2).1 (routeKey b.2).1 with h | h | h
    · exact Or.inl (Or.inl h)
    · rcases strLeB_total (routeKey a.2).2.toList (routeKey b.2).2.toList with h2 | h2
      · exact Or.inl (Or.inr ⟨h, h2⟩)
      · exact Or.inr (Or.inr ⟨h.symm, h2⟩)
    · exact Or.inr (Or.inl h)⟩

instance : IsTrans (String × RouteR) entryLe :=
  ⟨fun a b c hab hbc => by
    unfold entryLe keyLe at *
    rcases hab with h1 | ⟨h1, h1'⟩
    · rcases hbc with h2 | ⟨h2, _⟩
      · exact Or.inl (h1.trans h2)
      · exact Or.inl (h2 ▸ h1)
    · rcases hbc with h2 | ⟨h2, h2'⟩
      · exact Or.inl (h1 ▸ h2)
      · exact Or.inr ⟨h1.trans h2, strLeB_trans _ _ _ h1' h2'⟩⟩

/-- `Base.sort`:
`OrderedDict(reversed(sorted(self.routes.items(), key=...)))` — a stable
ascending sort by `(priority, path)`, then reversed, so iteration is
descending by that key. -/
def sortRoutes (l : List (String × RouteR)) : List (String × RouteR) :=
  (List.insertionSort entryLe l).reverse

/-- `Base.matches(request)`: sort, then yield the routes whose `match`
succeeds, in iteration order.  `p` stands for
`fun route => route.match(request) is not None`; the yielded
`RouteMatch` is identified with its route. -/
def matchesColl (l : List (String × RouteR)) (p : RouteR → Bool) : List RouteR :=
  ((sortRoutes l).map Prod.snd).filter p

/-- `Base.match(request)`: the first yielded match, or `None`. -/
def matchColl (l : List (String × RouteR)) (p : RouteR → Bool) : Option RouteR :=
  (matchesColl l p).head?

/-- `Choice.matches(request)`: concatenate each member router's match
sequence in registration order (`__iter__` yields every member, since
`Base.__bool__` is constantly true). -/
def matchesChoice (routers : List (List (String × RouteR))) (p : RouteR → Bool) : List RouteR :=
  (routers.map (fun c => matchesColl c p)).flatten

/-- `Choice.match(request)`: the first match over all members. -/
def matchChoice (routers : List (List (String × RouteR))) (p : RouteR → Bool) : Option RouteR :=
  (matchesChoice routers p).head?

/-! ### Conditions on segment trees used by the claims -/

/-- A tree containing only required nodes: no optional group anywhere at
the top level (a template with no `[...]` groups parses to such a
tree). -/
def requiredOnly : SegT → Bool
  | .nil => true
  | .static _ r => requiredOnly r
  | .segment _ r => requiredOnly r
  | .optional _ _ => false

/-- Every named segment is either last or immediately followed by a
static whose text begins with the path separator `/`.  Templates such as
`/:a/:b` satisfy this; adjacent captures (`:a:b`) do not. -/
def separated : SegT → Bool
  | .nil => true
  | .static _ r => separated r
  | .optional _ r => separated r
  | .segment _ .nil => true
  | .segment _ (.static s r) => ((s.toList.head? = some '/') : Bool) && separated (.static s r)
  | .segment _ (.segment _ _) => false
  | .segment _ (.optional _ _) => false

/-- The named segments of a tree, in template order. -/
def namesOf : SegT → List String
  | .nil => []
  | .static _ r => namesOf r
  | .segment n r => n :: namesOf r
  | .optional ch r => namesOf ch ++ namesOf r

/-- The pieces `path_from_segments` accumulates for a tree whose named
segments all resolve to a value: statics verbatim, values for
segments. -/
def segPieces : SegT → (String → String) → List String
  | .nil, _ => []
  | .static s r, v => s :: segPieces r v
  | .segment n r, v => v n :: segPieces r v
  | .optional ch r, v => segPieces ch v ++ segPieces r v

/-- The first named segment, in rendering order, that has no non-empty
value, scanning only the part of the level that precedes any optional
group (after an optional sibling the renderer's sticky `optional` flag
suppresses the error). -/
def requiredPrefixMissing (st : SegT) (params : String → Option String) : Option String :=
  match st with
  | .nil => none
  | .static _ r => requiredPrefixMissing r params
  | .optional _ _ => none
  | .segment n r =>
    match params n with
    | some v => if v = "" then some n else requiredPrefixMissing r params
    | none => some n

/-! ### Helper lemmas -/

theorem matchStatic_append (l t : List Char) : matchStatic l (l ++ t) = some t := by
  induction l with
  | nil => rfl
  | cons c cs ih => simp [matchStatic, ih]

theorem toList_ne_nil_of_ne_empty {s : String} (h : s ≠ "") : s.toList ≠ [] := by
  intro hnil
  apply h
  cases s with
  | mk data => cases data with
    | nil => rfl
    | cons c cs => simp [String.toList] at hnil

theorem asString_toList (s : String) : s.toList.asString = s := rfl

theorem takeWhile_all_append {p : Char → Bool} {m t : List Char}
    (hm : ∀ c ∈ m, p c = true) (ht : t = [] ∨ ∃ c t', t = c :: t' ∧ p c = false) :
    (m ++ t).takeWhile p = m := by
  induction m with
  | nil =>
    rcases ht with h | ⟨c, t', h, hc⟩
    · simp [h]
    · simp [h, List.takeWhile, hc]
  | cons a as ih =>
    have ha : p a = true := hm a (by simp)
    show List.takeWhile p (a :: (as ++ t)) = a :: as
    rw [List.takeWhile_cons, if_pos ha, ih (fun c hc => hm c (by simp [hc]))]

theorem join_toList (l : List String) : (String.join l).toList = (l.map String.toList).flatten := by
  have aux : ∀ (l : List String) (a : String),
      (l.foldl (· ++ ·) a).toList = a.toList ++ (l.map String.toList).flatten := by
    intro l
    induction l with
    | nil => intro a; simp
    | cons s t ih =>
      intro a
      simp only [List.foldl, List.map, List.flatten]
      rw [ih (a ++ s)]
      have : (a ++ s).toList = a.toList ++ s.toList := String.data_append a s
      rw [this, List.append_assoc]
  have h := aux l ""
  rw [show String.join l = l.foldl (· ++ ·) "" from rfl, h]
  rfl

theorem pfsAux_requiredOnly (v : String → String) (st : SegT) :
    requiredOnly st = true → (∀ n ∈ namesOf st, v n ≠ "") →
    ∀ (oLen : Nat) (acc : List String),
      pfsAux st (fun n => some (v n)) false oLen acc = .ok (acc ++ segPieces st v) := by
  induction st with
  | nil => intro _ _ oLen acc; simp [pfsAux, segPieces]
  | static s r ih =>
    intro hreq hv oLen acc
    have hreq' : requiredOnly r = true := by simpa [requiredOnly] using hreq
    have hv' : ∀ n ∈ namesOf r, v n ≠ "" := fun n hn => hv n (by simpa [namesOf] using hn)
    show pfsAux r (fun n => some (v n)) false oLen (acc ++ [s]) = _
    rw [ih hreq' hv' oLen (acc ++ [s])]
    simp [segPieces]
  | segment n r ih =>
    intro hreq hv oLen acc
    have hreq' : requiredOnly r = true := by simpa [requiredOnly] using hreq
    have hv' : ∀ m ∈ namesOf r, v m ≠ "" := fun m hm => hv m (by simp [namesOf, hm])
    have hn : v n ≠ "" := hv n (by simp [namesOf])
    show (if v n = "" then _ else pfsAux r (fun n => some (v n)) false oLen (acc ++ [v n])) = _
    rw [if_neg hn, ih hreq' hv' oLen (acc ++ [v n])]
    simp [segPieces]
  | optional ch r ihc ihr =>
    intro hreq
    exact absurd hreq (by simp [requiredOnly])

/-- For a tree with only required, resolvable segments, assembly
succeeds and produces the concatenation of statics and values. -/
theorem path_from_segments_requiredOnly (v : String → String) (st : SegT)
    (hreq : requiredOnly st = true) (hv : ∀ n ∈ namesOf st, v n ≠ "") :
    path_from_segments st (fun n => some (v n)) = .ok (String.join (segPieces st v)) := by
  unfold path_from_segments
  rw [pfsAux_requiredOnly v st hreq hv (segTLen st) []]
  rfl

theorem tryCap_exact (n : String) (m t : List Char) (cont : List Char → Option Caps)
    (caps : Caps) (hm : m ≠ []) (hcont : cont t = some caps) :
    tryCap n (m ++ t) m.length cont = some ((n, m.asString) :: caps) := by
  cases m with
  | nil => exact absurd rfl hm
  | cons c cl =>
    have hdrop : ((c :: cl) ++ t).drop (cl.length + 1) = t := by
      simpa using List.drop_left (c :: cl) t
    have htake : ((c :: cl) ++ t).take (cl.length + 1) = c :: cl := by
      simpa using List.take_left (c :: cl) t
    show tryCap n ((c :: cl) ++ t) (cl.length + 1) cont = _
    simp [tryCap, hdrop, htake, hcont]

/-- The compiled matcher, run on the assembled path of a tree with only
required, separated segments whose values are non-empty and
separator-free, recovers exactly the rendered values, in template
order. -/
theorem matchSegT_assembled (v : String → String) (st : SegT) :
    requiredOnly st = true → separated st = true →
    (∀ n ∈ namesOf st, v n ≠ "" ∧ '/' ∉ (v n).toList) →
    matchSegT st ((segPieces st v).map String.toList).flatten
        (fun cs => if cs.isEmpty then some [] else none) =
      some ((namesOf st).map (fun n => (n, v n))) := by
  induction st with
  | nil => intro _ _ _; simp [segPieces, namesOf, matchSegT]
  | static s r ih =>
    intro hreq hsep hv
    have hreq' : requiredOnly r = true := by simpa [requiredOnly] using hreq
    have hsep' : separated r = true := by simpa [separated] using hsep
    have hv' : ∀ m ∈ namesOf r, v m ≠ "" ∧ '/' ∉ (v m).toList :=
      fun m hm => hv m (by simpa [namesOf] using hm)
    have hin : ((segPieces (.static s r) v).map String.toList).flatten
        = s.toList ++ ((segPieces r v).map String.toList).flatten := by
      simp [segPieces]
    rw [hin]
    show (match matchStatic s.toList (s.toList ++ _) with
          | some cs' => matchSegT r cs' _
          | none => none) = _
    rw [matchStatic_append]
    exact ih hreq' hsep' hv'
  | segment n r ih =>
    intro hreq hsep hv
    obtain ⟨hne, hsl⟩ := hv n (by simp [namesOf])
    have hreq' : requiredOnly r = true := by simpa [requiredOnly] using hreq
    have hv' : ∀ m ∈ namesOf r, v m ≠ "" ∧ '/' ∉ (v m).toList :=
      fun m hm => hv m (by simp [namesOf, hm])
    have hmne : (v n).toList ≠ [] := toList_ne_nil_of_ne_empty hne
    have hm : ∀ c ∈ (v n).toList, (decide (c ≠ '/')) = true :=
      fun c hc => decide_eq_true (fun h => hsl (h ▸ hc))
    have hin : ((segPieces (.segment n r) v).map String.toList).flatten
        = (v n).toList ++ ((segPieces r v).map String.toList).flatten := by
      simp [segPieces]
    -- the tail of the input either ends the string or starts with '/'
    have hsep' : separated r = true ∧
        (((segPieces r v).map String.toList).flatten = [] ∨
         ∃ c t', ((segPieces r v).map String.toList).flatten = c :: t' ∧
           (decide (c ≠ '/')) = false) := by
      cases r with
      | nil => exact ⟨rfl, Or.inl (by simp [segPieces])⟩
      | static s r' =>
        have h2 := hsep
        simp only [separated, Bool.and_eq_true, decide_eq_true_eq] at h2
        obtain ⟨hhead, hsepr⟩ := h2
        cases hs : s.toList with
        | nil => rw [hs] at hhead; simp at hhead
        | cons c cl =>
          rw [hs] at hhead
          simp at hhead
          refine ⟨hsepr, Or.inr ⟨c, cl ++ ((segPieces r' v).map String.toList).flatten, ?_, ?_⟩⟩
          · simp [segPieces, show s.data = c :: cl from hs]
          · subst hhead; simp
      | segment m r' => simp [separated] at hsep
      | optional ch r' => simp [separated] at hsep
    obtain ⟨hsepr, ht⟩ := hsep'
    have hrun : (((v n).toList ++ ((segPieces r v).map String.toList).flatten).takeWhile
        (fun c => decide ¬c = '/')).length = (v n).toList.length := by
      rw [takeWhile_all_append hm ht]
    rw [hin]
    show tryCap n ((v n).toList ++ _) (((v n).toList ++ _).takeWhile _).length _ = _
    rw [hrun]
    rw [tryCap_exact n (v n).toList _ _ _ hmne (ih hreq' hsepr hv')]
    simp [namesOf, asString_toList]
    exact asString_toList (v n)
  | optional ch r ihc ihr =>
    intro hreq
    exact absurd hreq (by simp [requiredOnly])

/-! ### Claim C1 — assemble/match round trip for required-only templates -/

/-- Claim C1 counterexample: for the required-only template `"/:a"` and
the non-empty parameter value `a := "x/y"`, assembly yields `"/x/y"`,
but matching that path against the compiled pattern FAILS (the `[^/]+`
capture cannot cross the separator), so the round trip does not
hold as claimed for every non-empty parameter assignment. -/
theorem C1_counterexample :
    segments_from_path "/:a" = .ok (.static "/" (.segment "a" .nil)) ∧
    path_from_segments (.static "/" (.segment "a" .nil))
      (fun n => if n = "a" then some "x/y" else none) = .ok "/x/y" ∧
    regexMatch (.static "/" (.segment "a" .nil)) "/x/y" = none := by
  exact ⟨rfl, rfl, rfl⟩

/-- Claim C1 (amended): for a template that parses to a tree with only
required segments, where every named segment is either last or followed
by a `/`-initial static, with pairwise distinct names, and for every
parameter assignment giving each named segment a non-empty value that
contains no `/`, assembly succeeds and matching the assembled path
against the compiled pattern succeeds and recovers exactly the assigned
values, in template order. -/
theorem C1_roundtrip_amended (t : String) (st : SegT) (v : String → String)
    (hparse : segments_from_path t = .ok st)
    (hreq : requiredOnly st = true) (hsep : separated st = true)
    (hnodup : (namesOf st).Nodup)
    (hv : ∀ n ∈ namesOf st, v n ≠ "" ∧ '/' ∉ (v n).toList) :
    ∃ p, path_from_segments st (fun n => some (v n)) = .ok p ∧
      regexMatch st p = some ((namesOf st).map (fun n => (n, v n))) := by
  refine ⟨String.join (segPieces st v), ?_, ?_⟩
  · exact path_from_segments_requiredOnly v st hreq (fun n hn => (hv n hn).1)
  · unfold regexMatch
    rw [show (String.join (segPieces st v)).toList
        = ((segPieces st v).map String.toList).flatten from join_toList _]
    exact matchSegT_assembled v st hreq hsep hv

/-- Witness for C1: the template `"/u/:a/:b"` with `a := "x"`,
`b := "y"` assembles to `"/u/x/y"` and matches back to exactly those
values. -/
theorem C1_roundtrip_witness :
    ∃ p, path_from_segments (.static "/u/" (.segment "a" (.static "/" (.segment "b" .nil))))
          (fun n => some (if n = "a" then "x" else if n = "b" then "y" else "z")) = .ok p ∧
      regexMatch (.static "/u/" (.segment "a" (.static "/" (.segment "b" .nil)))) p =
        some [("a", "x"), ("b", "y")] := by
  have h := C1_roundtrip_amended "/u/:a/:b"
    (.static "/u/" (.segment "a" (.static "/" (.segment "b" .nil))))
    (fun n => if n = "a" then "x" else if n = "b" then "y" else "z")
    rfl rfl rfl (by decide) (by decide)
  simpa using h

/-! ### Claim C3 — unterminated `[` at end of input -/

/-- Claim C3 (code divergence): the parser does NOT raise on a template
with an unterminated `[` group; it silently closes the group at end of
input, and route construction succeeds.  `"/a[/:b"` parses to the same
tree as `"/a[/:b]"` and `build_route` yields a live pattern route. -/
theorem C3_unterminated_group_accepted :
    segments_from_path "/a[/:b" =
      .ok (.static "/a" (.optional (.static "/" (.segment "b" .nil)) .nil)) ∧
    buildRoute "r" "/a[/:b" 1 =
      .ok { name := "r", path := "/a[/:b", prio := 1,
            segs := some (.static "/a" (.optional (.static "/" (.segment "b" .nil)) .nil)) } := by
  exact ⟨rfl, rfl⟩

/-! ### Claim C4 — stray `]` with no prior `[` -/

/-- Claim C4 counterexample: a template containing a `]` with no prior
`[` need not fail construction.  `"/ab]"` contains no `:` or `[`, so the
segment-route strategy rejects it and it silently becomes a `Literal`
route; and in `":]ab"` the name scan after `:` skips the stray `]`
entirely, so even the pattern parser accepts it. -/
theorem C4_counterexample :
    buildRoute "r" "/ab]" 1 = .ok { name := "r", path := "/ab]", prio := 1, segs := none } ∧
    segments_from_path ":]ab" = .ok (.segment "ab" (.static "b" .nil)) := by
  exact ⟨rfl, rfl⟩

/-- Claim C4 (amended): for a template the segment-route strategy
accepts (it contains `:` or `[`), any parse failure — in particular the
`ValueError` raised when the tokenizer reaches a `]` with only the root
level open — aborts construction with that error, so no silently-parsed
route is produced; the error is raised at construction time. -/
theorem C4_stray_bracket_amended (name t : String) (prio : Int) (e : ParseErr)
    (hpat : hasPatternChar t = true) (hparse : segments_from_path t = .error e) :
    buildRoute name t prio = .error e := by
  unfold buildRoute
  rw [if_pos hpat, hparse]
  rfl

/-- Witness for C4: `"/:x]"` reaches the stray `]` and construction
fails with the bracket-mismatch error. -/
theorem C4_stray_bracket_witness :
    hasPatternChar "/:x]" = true ∧ segments_from_path "/:x]" = .error .bracketMismatch ∧
    buildRoute "r" "/:x]" 1 = .error .bracketMismatch :=
  ⟨rfl, rfl, C4_stray_bracket_amended "r" "/:x]" 1 .bracketMismatch rfl rfl⟩

/-! ### Claim C6 — nested optional groups -/

/-- The parsed tree of `"/about[/:company[/:branch]]"`. -/
def aboutSegs : SegT :=
  .static "/about"
    (.optional
      (.static "/"
        (.segment "company"
          (.optional (.static "/" (.segment "branch" .nil)) .nil)))
      .nil)

/-- Claim C6: the matcher compiled from `"/about[/:company[/:branch]]"`
accepts `/about` with nothing captured, `/about/acme` capturing only
`company`, `/about/acme/east` capturing `company` and `branch`, and
rejects `/about/acme/east/extra`. -/
theorem C6_nested_optional_groups :
    segments_from_path "/about[/:company[/:branch]]" = .ok aboutSegs ∧
    regexMatch aboutSegs "/about" = some [] ∧
    regexMatch aboutSegs "/about/acme" = some [("company", "acme")] ∧
    regexMatch aboutSegs "/about/acme/east" = some [("company", "acme"), ("branch", "east")] ∧
    regexMatch aboutSegs "/about/acme/east/extra" = none := by
  exact ⟨rfl, rfl, rfl, rfl, rfl⟩

/-! ### Claim C8 — missing value for a required segment -/

theorem pfsAux_segment_some {params : String → Option String} {m v : String}
    (hp : params m = some v) (r : SegT) (opt : Bool) (oLen : Nat) (acc : List String) :
    pfsAux (.segment m r) params opt oLen acc =
      if v = "" then
        (if opt then pfsAux r params opt oLen (pyTrunc acc (oLen - 1)) else .error m)
      else pfsAux r params opt oLen (acc ++ [v]) := by
  simp only [pfsAux]
  rw [hp]

theorem pfsAux_segment_none {params : String → Option String} {m : String}
    (hp : params m = none) (r : SegT) (opt : Bool) (oLen : Nat) (acc : List String) :
    pfsAux (.segment m r) params opt oLen acc =
      (if opt then pfsAux r params opt oLen (pyTrunc acc (oLen - 1)) else .error m) := by
  simp only [pfsAux]
  rw [hp]

theorem rpm_segment_some {params : String → Option String} {m v : String}
    (hp : params m = some v) (r : SegT) :
    requiredPrefixMissing (.segment m r) params =
      if v = "" then some m else requiredPrefixMissing r params := by
  simp only [requiredPrefixMissing]
  rw [hp]

theorem rpm_segment_none {params : String → Option String} {m : String}
    (hp : params m = none) (r : SegT) :
    requiredPrefixMissing (.segment m r) params = some m := by
  simp only [requiredPrefixMissing]
  rw [hp]

theorem pfsAux_missing :
    ∀ (st : SegT) (params : String → Option String) (n : String),
      requiredPrefixMissing st params = some n →
      ∀ (oLen : Nat) (acc : List String), pfsAux st params false oLen acc = .error n
  | .nil, params, n => by
    intro h
    simp [requiredPrefixMissing] at h
  | .static s r, params, n => by
    intro h oLen acc
    exact pfsAux_missing r params n h oLen (acc ++ [s])
  | .segment m r, params, n => by
    intro h oLen acc
    cases hp : params m with
    | none =>
      rw [rpm_segment_none hp r] at h
      have hmn : m = n := by simpa using h
      rw [pfsAux_segment_none hp r false oLen acc]
      simp [hmn]
    | some v =>
      by_cases hv : v = ""
      · rw [rpm_segment_some hp r, if_pos hv] at h
        have hmn : m = n := by simpa using h
        rw [pfsAux_segment_some hp r false oLen acc, if_pos hv]
        simp [hmn]
      · rw [rpm_segment_some hp r, if_neg hv] at h
        rw [pfsAux_segment_some hp r false oLen acc, if_neg hv]
        exact pfsAux_missing r params n h oLen (acc ++ [v])
  | .optional ch r, params, n => by
    intro h
    simp [requiredPrefixMissing] at h

/-- Claim C8 counterexample: in `"/a[/:b]/:c"` the segment `c` sits
OUTSIDE any optional group, yet assembling with no parameters at all
does not raise — the renderer's sticky `optional` flag, set when the
`[/:b]` group was passed, suppresses the error and truncates the path,
so `assemble` returns `""`. -/
theorem C8_counterexample :
    segments_from_path "/a[/:b]/:c" =
      .ok (.static "/a" (.optional (.static "/" (.segment "b" .nil))
            (.static "/" (.segment "c" .nil)))) ∧
    segmentAssemble
      (.static "/a" (.optional (.static "/" (.segment "b" .nil))
        (.static "/" (.segment "c" .nil)))) [] [] none = .ok "" := by
  exact ⟨rfl, rfl⟩

/-- Claim C8 (amended): assembly fails with an error naming the first
named segment, in rendering order, that has no non-empty value (merged
over keyword arguments and defaults), PROVIDED that segment is not
preceded at its level by any optional group — the source treats every
node after an optional sibling as optional, truncating instead of
raising. -/
theorem C8_missing_parameter_amended (st : SegT) (defaults kwargs : List (String × String))
    (pre : Option String) (n : String)
    (h : requiredPrefixMissing st (chainLookup kwargs defaults) = some n) :
    segmentAssemble st defaults kwargs pre = .error n := by
  unfold segmentAssemble path_from_segments
  rw [pfsAux_missing st _ n h (segTLen st) []]
  rfl

/-- Witness for C8: assembling `"/x/:a"` with no parameters fails
naming `a`. -/
theorem C8_missing_parameter_witness :
    requiredPrefixMissing (.static "/x/" (.segment "a" .nil)) (chainLookup [] []) = some "a" ∧
    segmentAssemble (.static "/x/" (.segment "a" .nil)) [] [] none = .error "a" :=
  ⟨rfl, C8_missing_parameter_amended (.static "/x/" (.segment "a" .nil)) [] [] none "a" rfl⟩

/-! ### Claim C2 — format negotiation -/

theorem lookupP_setParam (ps : List (String × String)) (k vv : String) :
    lookupP (setParam ps k vv) k = some vv := by
  induction ps with
  | nil => simp [setParam, lookupP]
  | cons e t ih =>
    obtain ⟨k', v'⟩ := e
    by_cases hk : k' = k
    · simp [setParam, hk, lookupP]
    · simp [setParam, hk, lookupP, ih]

theorem formatFold (c : String → Bool) :
    ∀ (fs : List String) (ps : List (String × String)),
      (fs.filter c = [] →
        fs.foldl (fun ps f => if c f then setParam ps "format" f else ps) ps = ps) ∧
      (∀ f, (fs.filter c).getLast? = some f →
        lookupP (fs.foldl (fun ps f => if c f then setParam ps "format" f else ps) ps) "format"
          = some f) := by
  intro fs
  induction fs with
  | nil => intro ps; exact ⟨fun _ => rfl, fun f hf => by simp at hf⟩
  | cons g t ih =>
    intro ps
    by_cases hg : c g
    · constructor
      · intro h
        rw [List.filter_cons, if_pos hg] at h
        exact absurd h (by simp)
      · intro f hf
        rw [List.filter_cons, if_pos hg] at hf
        show lookupP (t.foldl _ (if c g then setParam ps "format" g else ps)) "format" = some f
        rw [if_pos hg]
        cases hft : t.filter c with
        | nil =>
          rw [hft] at hf
          have hfg : f = g := by simpa using hf.symm
          rw [(ih (setParam ps "format" g)).1 hft, hfg]
          exact lookupP_setParam ps "format" g
        | cons x xs =>
          apply (ih (setParam ps "format" g)).2 f
          rw [hft] at hf ⊢
          rwa [List.getLast?_cons_cons] at hf
    · constructor
      · intro h
        rw [List.filter_cons, if_neg hg] at h
        show t.foldl _ (if c g then setParam ps "format" g else ps) = ps
        rw [if_neg hg]
        exact (ih ps).1 h
      · intro f hf
        rw [List.filter_cons, if_neg hg] at hf
        show lookupP (t.foldl _ (if c g then setParam ps "format" g else ps)) "format" = some f
        rw [if_neg hg]
        exact (ih ps).2 f hf

/-- Claim C2 counterexample: with a constraint no candidate satisfies,
the match does NOT fail — `format_check` still returns the (unchanged)
parameters; and with two matching candidates the LAST one, not the
first, ends up recorded as `format`. -/
theorem C2_counterexample :
    format_check (fun _ => false) [("xml", ["text/xml"])] "text/xml" [] = some [] ∧
    format_check (fun _ => true) [("json", ["a"]), ("xml", ["a"])] "a" [] =
      some [("format", "xml")] := by
  exact ⟨rfl, rfl⟩

/-- Claim C2 (amended): the format check fails (route does not match)
exactly when the candidate list derived from the MIME-type table for the
Accept header is empty.  When candidates exist, every candidate
accepted by the constraint overwrites `format`, so the LAST accepted
candidate is recorded; if no candidate is accepted the parameters are
returned unchanged (the route still matches). -/
theorem C2_format_amended (c : String → Bool) (mt : List (String × List String)) (a : String)
    (ps : List (String × String)) :
    (format_check c mt a ps = none ↔ candidatesOf mt a = []) ∧
    (∀ ps', format_check c mt a ps = some ps' →
      (((candidatesOf mt a).filter c = [] → ps' = ps) ∧
       ∀ f, ((candidatesOf mt a).filter c).getLast? = some f →
         lookupP ps' "format" = some f)) := by
  by_cases h : candidatesOf mt a = []
  · have hfc : format_check c mt a ps = none := by simp [format_check, h]
    constructor
    · rw [hfc]
      simp [h]
    · intro ps' hps'
      rw [hfc] at hps'
      exact absurd hps' (by simp)
  · have hne : (candidatesOf mt a).isEmpty = false := by
      cases hc : candidatesOf mt a with
      | nil => exact absurd hc h
      | cons x xs => simp
    have hfc : format_check c mt a ps =
        some ((candidatesOf mt a).foldl
          (fun ps f => if c f then setParam ps "format" f else ps) ps) := by
      simp [format_check, hne]
    constructor
    · rw [hfc]
      simp [h]
    · intro ps' hps'
      rw [hfc] at hps'
      simp only [Option.some.injEq] at hps'
      subst hps'
      exact ⟨(formatFold c (candidatesOf mt a) ps).1, (formatFold c (candidatesOf mt a) ps).2⟩

/-- Witness for C2: a concrete table with two candidates for the same
Accept value; the constraint accepts both and the recorded value is the
last candidate. -/
theorem C2_format_witness :
    format_check (fun _ => true) [("json", ["a"]), ("xml", ["a"])] "a" [] =
      some [("format", "xml")] ∧
    lookupP [("format", "xml")] "format" = some "xml" :=
  ⟨rfl,
    ((C2_format_amended (fun _ => true) [("json", ["a"]), ("xml", ["a"])] "a" []).2
      [("format", "xml")] rfl).2 "xml" rfl⟩

/-! ### Claim C7 — child-route expansion -/

theorem buildRoute_ok_fields {n p : String} {pr : Int} {r : RouteR}
    (h : buildRoute n p pr = .ok r) : r.name = n ∧ r.path = p ∧ r.prio = pr := by
  unfold buildRoute at h
  split at h
  · cases hp : segments_from_path p with
    | error e => rw [hp] at h; simp [Except.map] at h
    | ok st =>
      rw [hp] at h
      simp only [Except.map, Except.ok.injEq] at h
      rw [← h]
      exact ⟨rfl, rfl, rfl⟩
  · simp only [Except.ok.injEq] at h
    rw [← h]
    exact ⟨rfl, rfl, rfl⟩

/-- Claim C7: adding a definition named `parent` with a single child
named `child` produces exactly two registered routes — `parent/child`
(registered first) and `parent` — and the child's path is the parent's
path concatenated with the child's own path fragment. -/
theorem C7_child_expansion (P F : String) (pr1 pr2 : Int) (rp rc : RouteR)
    (hp : buildRoute "parent" P pr1 = .ok rp)
    (hc : buildRoute "parent/child" (P ++ F) pr2 = .ok rc) :
    add_definition "parent" (some P) pr1 (.node "child" (some F) pr2 .nil .nil) [] =
      .ok [("parent/child", rc), ("parent", rp)] ∧
    rp.path = P ∧ rc.path = P ++ F := by
  obtain ⟨hpn, hpp, _⟩ := buildRoute_ok_fields hp
  obtain ⟨hcn, hcp, _⟩ := buildRoute_ok_fields hc
  refine ⟨?_, hpp, hcp⟩
  have h2 : addChain (some rp) (.node "child" (some F) pr2 .nil .nil) [] =
      .ok [("parent/child", rc)] := by
    rw [show addChain (some rp) (.node "child" (some F) pr2 .nil .nil) []
        = (match buildRoute (rp.name ++ "/" ++ "child") (rp.path ++ F) pr2 with
           | .error e => .error e
           | .ok r =>
             match addChain (some r) .nil ([] : List (String × RouteR)) with
             | .error e => .error e
             | .ok coll2 => addChain (some rp) .nil (upsert coll2 (rp.name ++ "/" ++ "child") r))
          from rfl]
    rw [hpn, hpp]
    rw [show ("parent" ++ "/" ++ "child" : String) = "parent/child" from rfl]
    rw [hc]
    rfl
  rw [show add_definition "parent" (some P) pr1 (.node "child" (some F) pr2 .nil .nil) []
      = (match buildRoute "parent" P pr1 with
         | .error e => .error e
         | .ok r =>
           match addChain (some r) (.node "child" (some F) pr2 .nil .nil)
               ([] : List (String × RouteR)) with
           | .error e => .error e
           | .ok coll2 => addChain none .nil (upsert coll2 "parent" r)) from rfl]
  rw [hp]
  show (match addChain (some rp) (DefnT.node "child" (some F) pr2 .nil .nil)
          ([] : List (String × RouteR)) with
        | Except.error e => Except.error e
        | Except.ok coll2 => addChain none .nil (upsert coll2 "parent" rp)) =
      Except.ok [("parent/child", rc), ("parent", rp)]
  rw [h2]
  rfl

/-- Witness for C7: parent path `/p`, child fragment `/c`. -/
theorem C7_child_expansion_witness :
    add_definition "parent" (some "/p") 1 (.node "child" (some "/c") 1 .nil .nil) [] =
      .ok [("parent/child", { name := "parent/child", path := "/p/c", prio := 1, segs := none }),
           ("parent", { name := "parent", path := "/p", prio := 1, segs := none })] :=
  (C7_child_expansion "/p" "/c" 1 1
    { name := "parent", path := "/p", prio := 1, segs := none }
    { name := "parent/child", path := "/p/c", prio := 1, segs := none }
    rfl rfl).1

/-! ### Claim C9 — composite collection ordering -/

/-- Claim C9: a Choice router over members `(A, B)` yields all of A's
matches (in A's own order) before any of B's, and when A has a match,
`match` returns A's first match. -/
theorem C9_choice_order (A B : List (String × RouteR)) (p : RouteR → Bool) :
    matchesChoice [A, B] p = matchesColl A p ++ matchesColl B p ∧
    (∀ r, matchColl A p = some r → matchChoice [A, B] p = some r) := by
  have hcat : matchesChoice [A, B] p = matchesColl A p ++ matchesColl B p := by
    simp [matchesChoice]
  refine ⟨hcat, ?_⟩
  intro r h
  unfold matchChoice
  rw [hcat]
  unfold matchColl at h
  cases hA : matchesColl A p with
  | nil => rw [hA] at h; simp at h
  | cons x t =>
    rw [hA] at h
    simp only [List.head?_cons, Option.some.injEq] at h
    simp [h]

/-- Witness for C9: both members hold a route matching everything; the
composite returns the first member's route. -/
theorem C9_choice_order_witness :
    matchChoice [[("x", { name := "x", path := "/p", prio := 1, segs := none })],
                 [("y", { name := "y", path := "/p", prio := 1, segs := none })]]
        (fun _ => true) =
      some { name := "x", path := "/p", prio := 1, segs := none } :=
  (C9_choice_order [("x", { name := "x", path := "/p", prio := 1, segs := none })]
    [("y", { name := "y", path := "/p", prio := 1, segs := none })] (fun _ => true)).2
    { name := "x", path := "/p", prio := 1, segs := none } rfl

/-! ### Claim C5 — priority ordering -/

/-- Claim C5 counterexample: with DECLARED priorities `0` and `1`, both
routes matching, `match` can return the declared-`0` route — the
priority property maps `0` to `1`, so the two tie and the path
tie-break decides.  The claim as stated (over declared priorities) is
therefore false. -/
theorem C5_counterexample :
    matchColl [("a", { name := "a", path := "/b", prio := 0, segs := none }),
               ("b", { name := "b", path := "/a", prio := 1, segs := none })]
        (fun _ => true) =
      some { name := "a", path := "/b", prio := 0, segs := none } ∧
    priorityRead 0 = priorityRead 1 := by
  exact ⟨rfl, rfl⟩

/-- Claim C5 (amended): after the lazy sort, iteration is descending in
the key `(priority property, path)`; and for routes whose EFFECTIVE
priorities (`int(p) or 1`) differ, when the higher- and lower-priority
routes are the only matching ones, `match` returns the higher-priority
route. -/
theorem C5_priority_amended (l : List (String × RouteR)) (p : RouteR → Bool)
    (n₁ n₂ : String) (r₁ r₂ : RouteR)
    (h₁ : (n₁, r₁) ∈ l) (h₂ : (n₂, r₂) ∈ l)
    (hp₁ : p r₁ = true) (hp₂ : p r₂ = true)
    (hpr : priorityRead r₂.prio < priorityRead r₁.prio)
    (honly : ∀ e ∈ l, p e.2 = true → e.2 = r₁ ∨ e.2 = r₂) :
    List.Pairwise (fun a b => entryLe b a) (sortRoutes l) ∧ matchColl l p = some r₁ := by
  have hsorted : List.Pairwise (fun a b => entryLe b a) (sortRoutes l) := by
    unfold sortRoutes
    rw [List.pairwise_reverse]
    exact List.sorted_insertionSort entryLe l
  refine ⟨hsorted, ?_⟩
  have hperm : (sortRoutes l).Perm l :=
    (List.reverse_perm _).trans (List.perm_insertionSort entryLe l)
  have hr₁mem : r₁ ∈ matchesColl l p := by
    unfold matchesColl
    refine List.mem_filter.mpr ⟨?_, hp₁⟩
    exact List.mem_map.mpr ⟨(n₁, r₁), hperm.mem_iff.mpr h₁, rfl⟩
  have hPW : List.Pairwise (fun a b => keyLe (routeKey b) (routeKey a)) (matchesColl l p) := by
    unfold matchesColl
    apply List.Pairwise.sublist (List.filter_sublist _)
    rw [List.pairwise_map]
    exact hsorted
  cases hF : matchesColl l p with
  | nil => rw [hF] at hr₁mem; simp at hr₁mem
  | cons h t =>
    have hhl : h ∈ List.map Prod.snd l ∧ p h = true := by
      have hhmem : h ∈ matchesColl l p := by rw [hF]; simp
      have := List.mem_filter.mp (by rw [matchesColl] at hhmem; exact hhmem)
      exact ⟨(hperm.map Prod.snd).mem_iff.mp this.1, this.2⟩
    have hcase : h = r₁ ∨ h = r₂ := by
      obtain ⟨e, hel, he⟩ := List.mem_map.mp hhl.1
      have := honly e hel (by rw [he]; exact hhl.2)
      rw [he] at this
      exact this
    have hgoal : matchColl l p = (h :: t).head? := by rw [matchColl, hF]
    rcases hcase with rfl | rfl
    · rw [hgoal]; rfl
    · exfalso
      rw [hF] at hr₁mem
      rcases List.mem_cons.mp hr₁mem with rfl | hmem
      · exact lt_irrefl _ hpr
      · rw [hF] at hPW
        have hle : (routeKey r₁).1 < (routeKey h).1 ∨
            ((routeKey r₁).1 = (routeKey h).1 ∧
             strLeB (routeKey r₁).2.toList (routeKey h).2.toList = true) :=
          (List.pairwise_cons.mp hPW).1 r₁ hmem
        rcases hle with hlt | ⟨heq, _⟩
        · exact absurd hlt (lt_asymm hpr)
        · rw [show (routeKey r₁).1 = priorityRead r₁.prio from rfl,
              show (routeKey h).1 = priorityRead h.prio from rfl] at heq
          rw [heq] at hpr
          exact lt_irrefl _ hpr

/-- Witness for C5: effective priorities 2 and 1; the priority-2 route
is returned. -/
theorem C5_priority_witness :
    matchColl [("hi", { name := "hi", path := "/h", prio := 2, segs := none }),
               ("lo", { name := "lo", path := "/l", prio := 1, segs := none })]
        (fun _ => true) =
      some { name := "hi", path := "/h", prio := 2, segs := none } :=
  (C5_priority_amended
    [("hi", { name := "hi", path := "/h", prio := 2, segs := none }),
     ("lo", { name := "lo", path := "/l", prio := 1, segs := none })]
    (fun _ => true) "hi" "lo"
    { name := "hi", path := "/h", prio := 2, segs := none }
    { name := "lo", path := "/l", prio := 1, segs := none }
    (by simp) (by simp) rfl rfl (by decide) (by decide)).2

/-! ### Claim C10 — the priority property never reads 0 -/

/-- Claim C10: the observable priority (`int(self._priority) or 1`) is
never `0`; the first definition of a `List` collection, which gets its
0-based position as default priority, reads back `1` and so ties with a
route declared at priority `1`. -/
theorem C10_priority_never_zero :
    (∀ p : Int, priorityRead p ≠ 0) ∧
    priorityRead (listPriority 0 none) = 1 ∧
    priorityRead (listPriority 0 none) = priorityRead (listPriority 1 none) := by
  refine ⟨fun p => ?_, rfl, rfl⟩
  unfold priorityRead
  split
  · simp
  · assumption

end WatsonRouting
